import Mathlib

/-!
Verification of the Orthobullets cases feed script
(src/orthobullets_cases_rss.py).

The Python source is shallowly embedded: pure helpers become Lean
functions over String / List Char, timestamps are modelled as Int epoch
seconds, and the effectful pipeline of main() is modelled as pure state
passing over explicit lists, with the browser interactions (page fetch,
attribute lookup, url joining, hashing) passed in as function or data
parameters.
-/

namespace Ortho

/-! ### Characters and small string helpers -/

/-- The double quote character (written numerically). -/
def quotC : Char := Char.ofNat 34

/-- The apostrophe character (written numerically). -/
def aposC : Char := Char.ofNat 39

/-- The backslash character (written numerically). -/
def bsC : Char := Char.ofNat 92

/-- A one character string holding an apostrophe. -/
def aposS : String := String.mk [aposC]

/-- A one character string holding a double quote. -/
def quotS : String := String.mk [quotC]

/-- Python whitespace for str.split and the regex class backslash-s:
space, tab, newline, carriage return, vertical tab, form feed. -/
def isSpc (c : Char) : Bool :=
  c = ' ' || c = '\t' || c = '\n' || c = '\r' || c = Char.ofNat 11 || c = Char.ofNat 12

/-- The whitespace separated words of a character list; cur accumulates
the current word reversed. -/
def normWordsGo (cur : List Char) : List Char → List (List Char)
  | [] => if cur.isEmpty then [] else [cur.reverse]
  | c :: cs =>
    if isSpc c then
      if cur.isEmpty then normWordsGo [] cs
      else cur.reverse :: normWordsGo [] cs
    else normWordsGo (c :: cur) cs

/-- Words joined by single spaces. -/
def joinWords : List (List Char) → List Char
  | [] => []
  | [w] => w
  | w :: w2 :: ws => w ++ ' ' :: joinWords (w2 :: ws)

/-- Embeds norm: join(split()) collapses whitespace runs and trims. -/
def norm (s : String) : String :=
  String.mk (joinWords (normWordsGo [] s.data))

/-- Word character for the regex word boundary: ASCII letters, digits, underscore. -/
def isWordChar (c : Char) : Bool := c.isAlphanum || c = '_'

/-! ### Relative age parsing (parse_relative_age_to_dt)

The Python function lowercases the text, rewrites the words a and an to 1
(re.sub with word boundaries), then searches for the leftmost occurrence of
digits, optional spaces, a unit word, an optional letter s, optional
spaces, and the letters ago. -/

/-- The six time units accepted by the regex alternation, in its order. -/
inductive TimeUnit where
  | minute | hour | day | week | month | year
deriving DecidableEq, Repr

/-- The letters of each unit word. -/
def unitChars : TimeUnit → List Char
  | .minute => ['m', 'i', 'n', 'u', 't', 'e']
  | .hour => ['h', 'o', 'u', 'r']
  | .day => ['d', 'a', 'y']
  | .week => ['w', 'e', 'e', 'k']
  | .month => ['m', 'o', 'n', 't', 'h']
  | .year => ['y', 'e', 'a', 'r']

/-- The timedelta of one unit, in seconds: weeks are 7 days, months 30
days, years 365 days, exactly as in the Python branches. -/
def unitSeconds : TimeUnit → Int
  | .minute => 60
  | .hour => 3600
  | .day => 86400
  | .week => 7 * 86400
  | .month => 30 * 86400
  | .year => 365 * 86400

/-- Matches one unit word at the head of the list.  The patterns are tried
in the order of the regex alternation; since no unit word is a prefix of
another, first match at a fixed position is exact. -/
def matchUnit : List Char → Option (TimeUnit × List Char)
  | 'm' :: 'i' :: 'n' :: 'u' :: 't' :: 'e' :: rest => some (.minute, rest)
  | 'h' :: 'o' :: 'u' :: 'r' :: rest => some (.hour, rest)
  | 'd' :: 'a' :: 'y' :: rest => some (.day, rest)
  | 'w' :: 'e' :: 'e' :: 'k' :: rest => some (.week, rest)
  | 'm' :: 'o' :: 'n' :: 't' :: 'h' :: rest => some (.month, rest)
  | 'y' :: 'e' :: 'a' :: 'r' :: rest => some (.year, rest)
  | _ => none

/-- The numeric value of a decimal digit character. -/
def digitVal (c : Char) : Nat := c.toNat - 48

/-- The number denoted by a digit string, as int() reads the regex group. -/
def digitsToNat (ds : List Char) : Nat := ds.foldl (fun acc c => 10 * acc + digitVal c) 0

/-- True when the letters ago stand at the head (the regex needs nothing
after them). -/
def matchAgo : List Char → Bool
  | 'a' :: 'g' :: 'o' :: _ => true
  | _ => false

/-- Consumes the optional letter s after the unit word.  No backtracking
is lost: the regex tail after the optional s cannot start with s. -/
def dropS : List Char → List Char
  | 's' :: t => t
  | r => r

/-- Tries the whole regex body at the head of the list: one or more
digits, optional spaces, a unit word, an optional s, optional spaces, ago.
Greedy digit and space runs are exact here because no unit word starts
with a digit or a space and ago starts with a letter. -/
def matchAt (l : List Char) : Option (Nat × TimeUnit) :=
  if (l.takeWhile Char.isDigit).isEmpty then none
  else
    match matchUnit ((l.dropWhile Char.isDigit).dropWhile isSpc) with
    | none => none
    | some (u, r3) =>
      if matchAgo ((dropS r3).dropWhile isSpc) then
        some (digitsToNat (l.takeWhile Char.isDigit), u)
      else none

/-- re.search: the leftmost position where the body matches. -/
def relSearch : List Char → Option (Nat × TimeUnit)
  | [] => none
  | c :: cs =>
    match matchAt (c :: cs) with
    | some r => some r
    | none => relSearch cs

/-- True when the head of the list is absent or is not a word character
(the word boundary after a candidate a or an). -/
def headNotWord : List Char → Bool
  | [] => true
  | c :: _ => !isWordChar c

/-- Embeds re.sub of word-bounded an or a by 1.  The boolean argument
records whether the previous character of the original string is a word
character (false at the start). -/
def subAnGo : Bool → List Char → List Char
  | prevW, 'a' :: 'n' :: rest =>
    if !prevW && headNotWord rest then '1' :: subAnGo true rest
    else 'a' :: subAnGo true ('n' :: rest)
  | prevW, 'a' :: rest =>
    if !prevW && headNotWord rest then '1' :: subAnGo true rest
    else 'a' :: subAnGo true rest
  | _, c :: rest => c :: subAnGo (isWordChar c) rest
  | _, [] => []

/-- The processed character list the regex search runs on: lowercased,
with word-bounded a and an rewritten to 1. -/
def processText (text : String) : List Char :=
  subAnGo false (text.data.map Char.toLower)

/-- Embeds parse_relative_age_to_dt.  now_utc() is passed in as the epoch
second count T; the result is the epoch second count of now minus the
stated timedelta, or none when the text is empty or the search fails. -/
def parse_relative_age_to_dt (T : Int) (text : String) : Option Int :=
  if text = "" then none
  else
    match relSearch (processText text) with
    | none => none
    | some (n, u) => some (T - unitSeconds u * n)

/-- Declarative form of one occurrence of the regex body at the very head
of a character list. -/
def RelAgeBody (l : List Char) (n : Nat) (u : TimeUnit) : Prop :=
  ∃ ds w1 ps w2 post,
    l = ds ++ w1 ++ unitChars u ++ ps ++ w2 ++ ('a' :: 'g' :: 'o' :: post) ∧
    ds ≠ [] ∧ (∀ c ∈ ds, Char.isDigit c) ∧
    (∀ c ∈ w1, isSpc c) ∧ (∀ c ∈ w2, isSpc c) ∧
    (ps = [] ∨ ps = ['s']) ∧ digitsToNat ds = n

/-- Declarative form of the regex search: some suffix of the list starts
with an occurrence of the body. -/
def HasRelAge (l : List Char) (n : Nat) (u : TimeUnit) : Prop :=
  ∃ pre rest, l = pre ++ rest ∧ RelAgeBody rest n u

/-! ### XML escaping (esc)

The Python esc chains five str.replace calls, amp first.  Since every
pattern is a single character and no replacement output contains a
character replaced by a later step (the amp inside the entities is
produced, not reprocessed), the chain acts independently on each input
character; the embedding maps each character to its entity directly. -/

/-- The entity for one character, or the character itself. -/
def escChar (c : Char) : List Char :=
  if c = '&' then "&amp;".data
  else if c = '<' then "&lt;".data
  else if c = '>' then "&gt;".data
  else if c = quotC then "&quot;".data
  else if c = aposC then "&apos;".data
  else [c]

/-- Embeds esc. -/
def esc (s : String) : String := String.mk (s.data.flatMap escChar)

/-! ### URL handling and the list collector (login_and_collect_tiles)

Browser effects are abstracted away: the listing document is given as the
already extracted tile data (first anchor href and the joined tile text)
and, for the fallback path, the anchor hrefs.  urljoin is an external
library call and is passed in as the function argument join. -/

/-- The default listing URL (env OTB_URL). -/
def LIST_URL : String :=
  "https://www.orthobullets.com/Site/ElasticSearch/StandardSearchTiles?contentType=5&s=1,2,3,225,6,7,10"

/-- The site base used to absolutize relative hrefs. -/
def baseUrl : String := "https://www.orthobullets.com"

/-- The substring every kept link must contain. -/
def casePat : String := "/Site/Cases/View/"

/-- Default output paths (env OTB_OUTPUT, OTB_JSON). -/
def OUTPUT_RSS : String := "dist/orthobullets_cases.xml"

/-- Default JSON output path. -/
def OUTPUT_JSON : String := "dist/orthobullets_cases.json"

/-- Whether pat occurs as a contiguous run inside l (the Python in test). -/
def listHasInfix (pat : List Char) : List Char → Bool
  | [] => pat.isEmpty
  | c :: cs => pat.isPrefixOf (c :: cs) || listHasInfix pat cs

/-- String form of the containment test. -/
def strContains (s pat : String) : Bool := listHasInfix pat.data s.data

/-- Python str.startswith, over the character lists. -/
def strStartsWith (s pre : String) : Bool := pre.data.isPrefixOf s.data

/-- Embeds abs_url: empty href gives none, absolute hrefs pass through,
relative hrefs go through the external join function. -/
def abs_url (join : String → String → String) (base : String) (href : String) :
    Option String :=
  if href = "" then none
  else some (if strStartsWith href "http" then href else join base href)

/-- One listing tile: the href of its first contained anchor, when one
exists, and the whitespace joined text of the tile. -/
structure Tile where
  firstHref : Option String
  text : String
deriving DecidableEq, Repr

/-- One candidate returned by the collector: an absolute link and the
optional timestamp parsed from the tile text. -/
structure TileCand where
  link : String
  pub_dt : Option Int
deriving DecidableEq, Repr

/-- The anchor fallback path: keep hrefs that absolutize and contain the
case pattern; no recency hint and no dedup on this path. -/
def collectAnchors (join : String → String → String) (anchors : List String)
    (maxItems : Nat) : List TileCand :=
  (anchors.filterMap (fun h =>
    match abs_url join baseUrl h with
    | none => none
    | some u => if strContains u casePat then some { link := u, pub_dt := none } else none)).take
    maxItems

/-- The tile path walk: first anchor href, absolutize, pattern filter,
dedup by the seen set (first occurrence wins), and the relative age parsed
from the tile text at run time T. -/
def collectTilesGo (join : String → String → String) (T : Int) (seen : List String) :
    List Tile → List TileCand
  | [] => []
  | t :: ts =>
    match t.firstHref with
    | none => collectTilesGo join T seen ts
    | some h =>
      match abs_url join baseUrl h with
      | none => collectTilesGo join T seen ts
      | some u =>
        if strContains u casePat then
          if u ∈ seen then collectTilesGo join T seen ts
          else { link := u, pub_dt := parse_relative_age_to_dt T (norm t.text) } ::
            collectTilesGo join T (u :: seen) ts
        else collectTilesGo join T seen ts

/-- The tile path, bounded to the first maxItems candidates. -/
def collectTiles (join : String → String → String) (T : Int) (tiles : List Tile)
    (maxItems : Nat) : List TileCand :=
  (collectTilesGo join T [] tiles).take maxItems

/-- Embeds the collection part of login_and_collect_tiles: the anchor
fallback runs only when the tile query matched nothing. -/
def login_and_collect_tiles (join : String → String → String) (T : Int)
    (tiles : List Tile) (anchors : List String) (maxItems : Nat) : List TileCand :=
  if tiles.isEmpty then collectAnchors join anchors maxItems
  else collectTiles join T tiles maxItems

/-! ### Field extraction (extract_case) -/

/-- The record extract_case builds for one detail page. -/
structure CaseData where
  title : String
  doctor : String
  images : List String
  published_at : Option Int
  text : String
  therapy : String
deriving DecidableEq, Repr

/-- The raw title before normalization: og is the og:title content (none
models both a missing attribute and the lookup timeout); a falsy og falls
through to the document title pt, whose failure (none, modelling
page.title() raising) falls through to the link. -/
def rawTitle (og : Option String) (pt : Option String) (link : String) : String :=
  match og with
  | some s => if s = "" then (match pt with | some v => v | none => link) else s
  | none => match pt with | some v => v | none => link

/-- Embeds the title chain of extract_case: the raw title is whitespace
normalized, and the dict literal substitutes the placeholder when the
normalized title is falsy. -/
def extract_title (og : Option String) (pt : Option String) (link : String) : String :=
  if norm (rawTitle og pt link) = "" then "Untitled case" else norm (rawTitle og pt link)

/-! ### The recency filter inside main -/

/-- One record appended to kept by main. -/
structure KeptItem where
  title : String
  link : String
  doctor : String
  text : String
  therapy : String
  images : List String
  id : String
  pub_dt : Int
deriving DecidableEq, Repr

/-- The cutoff main computes at run start: now minus 24 hours. -/
def cutoffOf (T : Int) : Int := T - 24 * 3600

/-- The pre filter over the list page hints: a tile is dropped only when
it carries a hint older than the cutoff. -/
def prelimFilter (T : Int) (tiles : List TileCand) : List TileCand :=
  tiles.filter (fun t =>
    match t.pub_dt with
    | some d => decide (cutoffOf T ≤ d)
    | none => true)

/-- The effective timestamp: the tile hint when present, else the detail
page timestamp when present. -/
def effectiveDt (t : TileCand) (d : CaseData) : Option Int :=
  match t.pub_dt with
  | some x => some x
  | none => d.published_at

/-- The record main appends for a retained item. -/
def buildKept (guid : String → String) (t : TileCand) (d : CaseData) (pd : Int) :
    KeptItem :=
  { title := d.title, link := t.link, doctor := d.doctor, text := d.text,
    therapy := d.therapy, images := d.images, id := guid t.link, pub_dt := pd }

/-- The per item body of the main loop: extraction failure (none) skips
the item, an unknown effective timestamp skips it, a timestamp before the
cutoff skips it, anything else is kept.  guid abstracts the sha1 digest,
extract abstracts opening the detail page. -/
def processTile (guid : String → String) (extract : String → Option CaseData)
    (T : Int) (t : TileCand) : Option KeptItem :=
  match extract t.link with
  | none => none
  | some d =>
    match effectiveDt t d with
    | none => none
    | some pd => if pd < cutoffOf T then none else some (buildKept guid t d pd)

/-- The kept list main builds: the pre filter by list hints, then the per
item loop in order. -/
def keptOf (guid : String → String) (extract : String → Option CaseData)
    (T : Int) (tiles : List TileCand) : List KeptItem :=
  (prelimFilter T tiles).filterMap (processTile guid extract T)

/-- Modelled from the spec: the per item step section 4.4 describes,
with the include undated configuration flag the source does not have.
When the flag is set an item with unknown effective timestamp receives
the run time T as its effective timestamp instead of being dropped.
Used only to exhibit the divergence between spec and code. -/
def specProcessTileFlagged (includeUndated : Bool) (guid : String → String)
    (extract : String → Option CaseData) (T : Int) (t : TileCand) : Option KeptItem :=
  match extract t.link with
  | none => none
  | some d =>
    match effectiveDt t d with
    | none =>
      if includeUndated then
        if T < cutoffOf T then none else some (buildKept guid t d T)
      else none
    | some pd => if pd < cutoffOf T then none else some (buildKept guid t d pd)

/-! ### Date formatting

Epoch seconds to civil date, for strftime and isoformat.  The civil
conversion is the standard era based algorithm; divisions are floor
divisions (operands are shifted so the inner ones are nonnegative). -/

/-- Civil (year, month, day) from days since the epoch. -/
def civilFromDays (z0 : Int) : Int × Int × Int :=
  let z := z0 + 719468
  let era := Int.fdiv z 146097
  let doe := z - era * 146097
  let yoe := Int.fdiv (doe - Int.fdiv doe 1460 + Int.fdiv doe 36524 - Int.fdiv doe 146096) 365
  let y := yoe + era * 400
  let doy := doe - (365 * yoe + Int.fdiv yoe 4 - Int.fdiv yoe 100)
  let mp := Int.fdiv (5 * doy + 2) 153
  let d := doy - Int.fdiv (153 * mp + 2) 5 + 1
  let m := mp + (if mp < 10 then 3 else -9)
  (y + (if m ≤ 2 then 1 else 0), m, d)

/-- Zero padded two digit rendering of a nonnegative number. -/
def pad2 (n : Int) : String := if n < 10 then "0" ++ toString n else toString n

/-- Epoch seconds to (year, month, day, hour, minute, second) in UTC. -/
def splitEpoch (t : Int) : Int × Int × Int × Int × Int × Int :=
  let sod := Int.emod t 86400
  let days := Int.fdiv t 86400
  let c := civilFromDays days
  (c.1, c.2.1, c.2.2, Int.fdiv sod 3600, Int.fdiv (Int.emod sod 3600) 60, Int.emod sod 60)

/-- Weekday abbreviations indexed from Sunday. -/
def dayAbbrev (t : Int) : String :=
  (["Sun", "Mon", "Tue", "Wed", "Thu", "Fri", "Sat"]).getD
    (Int.emod (Int.fdiv t 86400 + 4) 7).toNat "Sun"

/-- Month abbreviations indexed from January. -/
def monthAbbrev (m : Int) : String :=
  (["Jan", "Feb", "Mar", "Apr", "May", "Jun", "Jul", "Aug", "Sep", "Oct", "Nov", "Dec"]).getD
    (m - 1).toNat "Jan"

/-- Embeds rfc2822: strftime of an aware UTC datetime. -/
def rfc2822 (t : Int) : String :=
  let p := splitEpoch t
  dayAbbrev t ++ ", " ++ pad2 p.2.2.1 ++ " " ++ monthAbbrev p.2.1 ++ " " ++
    toString p.1 ++ " " ++ pad2 p.2.2.2.1 ++ ":" ++ pad2 p.2.2.2.2.1 ++ ":" ++
    pad2 p.2.2.2.2.2 ++ " +0000"

/-- datetime.isoformat() of an aware UTC datetime. -/
def isoFormat (t : Int) : String :=
  let p := splitEpoch t
  toString p.1 ++ "-" ++ pad2 p.2.1 ++ "-" ++ pad2 p.2.2.1 ++ "T" ++
    pad2 p.2.2.2.1 ++ ":" ++ pad2 p.2.2.2.2.1 ++ ":" ++ pad2 p.2.2.2.2.2 ++ "+00:00"

/-! ### The feed builder (build_rss) -/

/-- The therapy snippet in the description: the first 300 characters plus
an ellipsis when truncation happened. -/
def snip (therapy : String) : String :=
  therapy.take 300 ++ (if therapy.length > 300 then "…" else "")

/-- The optional description parts, in source order: doctor then therapy,
each only when nonempty. -/
def descParts (it : KeptItem) : List String :=
  (if it.doctor ≠ "" then ["Doctor: " ++ it.doctor] else []) ++
    (if it.therapy ≠ "" then ["Therapy: " ++ snip it.therapy] else [])

/-- The output lines build_rss appends for one item. -/
def itemLines (it : KeptItem) : List String :=
  ["<item>",
   "<title>" ++ esc it.title ++ "</title>",
   "<link>" ++ esc it.link ++ "</link>",
   "<guid isPermaLink=" ++ aposS ++ "false" ++ aposS ++ ">" ++ esc it.id ++ "</guid>",
   "<pubDate>" ++ esc (rfc2822 it.pub_dt) ++ "</pubDate>"] ++
  (if descParts it ≠ [] then
    ["<description>" ++ esc (String.intercalate " | " (descParts it)) ++ "</description>"]
   else []) ++
  (match it.images with
   | [] => []
   | img :: _ =>
     ["<enclosure url=" ++ quotS ++ esc img ++ quotS ++ " type=" ++ quotS ++
        "image/jpeg" ++ quotS ++ "/>",
      "<media:content url=" ++ quotS ++ esc img ++ quotS ++ " medium=" ++ quotS ++
        "image" ++ quotS ++ "/>"]) ++
  ["</item>"]

/-- The channel header lines, with the build date at run time T. -/
def headerLines (T : Int) : List String :=
  ["<?xml version=" ++ quotS ++ "1.0" ++ quotS ++ " encoding=" ++ quotS ++ "UTF-8" ++
     quotS ++ "?>",
   "<rss version=" ++ quotS ++ "2.0" ++ quotS ++ " xmlns:media=" ++ quotS ++
     "http://search.yahoo.com/mrss/" ++ quotS ++ ">",
   "<channel>",
   "<title>Orthobullets Cases (last 24h)</title>",
   "<link>" ++ esc LIST_URL ++ "</link>",
   "<description>Cases in the last 24 hours; includes doctor, first image, therapy snippet.</description>",
   "<lastBuildDate>" ++ rfc2822 T ++ "</lastBuildDate>"]

/-- The full line list of the feed document. -/
def rssLines (T : Int) (items : List KeptItem) : List String :=
  headerLines T ++ items.flatMap itemLines ++ ["</channel>", "</rss>"]

/-- Embeds build_rss: the lines joined by newlines. -/
def build_rss (T : Int) (items : List KeptItem) : String :=
  String.intercalate "\n" (rssLines T items)

/-- The already escaped text values of one item, as interpolated into the
feed: used to state that every interpolation goes through esc. -/
structure EscItem where
  titleE : String
  linkE : String
  idE : String
  pubDateE : String
  descE : Option String
  imgE : Option String
deriving DecidableEq, Repr

/-- The escaped projection of an item. -/
def escItemOf (it : KeptItem) : EscItem :=
  { titleE := esc it.title, linkE := esc it.link, idE := esc it.id,
    pubDateE := esc (rfc2822 it.pub_dt),
    descE := if descParts it ≠ [] then
        some (esc (String.intercalate " | " (descParts it)))
      else none,
    imgE := it.images.head?.map esc }

/-- Item lines rebuilt from pre escaped values only: no call to esc. -/
def itemLinesT (e : EscItem) : List String :=
  ["<item>",
   "<title>" ++ e.titleE ++ "</title>",
   "<link>" ++ e.linkE ++ "</link>",
   "<guid isPermaLink=" ++ aposS ++ "false" ++ aposS ++ ">" ++ e.idE ++ "</guid>",
   "<pubDate>" ++ e.pubDateE ++ "</pubDate>"] ++
  (match e.descE with
   | some s => ["<description>" ++ s ++ "</description>"]
   | none => []) ++
  (match e.imgE with
   | none => []
   | some img =>
     ["<enclosure url=" ++ quotS ++ img ++ quotS ++ " type=" ++ quotS ++
        "image/jpeg" ++ quotS ++ "/>",
      "<media:content url=" ++ quotS ++ img ++ quotS ++ " medium=" ++ quotS ++
        "image" ++ quotS ++ "/>"]) ++
  ["</item>"]

/-- Channel header rebuilt from a pre escaped channel link. -/
def headerLinesT (linkE : String) (T : Int) : List String :=
  ["<?xml version=" ++ quotS ++ "1.0" ++ quotS ++ " encoding=" ++ quotS ++ "UTF-8" ++
     quotS ++ "?>",
   "<rss version=" ++ quotS ++ "2.0" ++ quotS ++ " xmlns:media=" ++ quotS ++
     "http://search.yahoo.com/mrss/" ++ quotS ++ ">",
   "<channel>",
   "<title>Orthobullets Cases (last 24h)</title>",
   "<link>" ++ linkE ++ "</link>",
   "<description>Cases in the last 24 hours; includes doctor, first image, therapy snippet.</description>",
   "<lastBuildDate>" ++ rfc2822 T ++ "</lastBuildDate>"]

/-! ### The tail of main: sort, truncate, write, exit -/

/-- The sort comparison: descending by effective timestamp.  Python
list.sort with a key and reverse=True is the stable sort under this
relation. -/
def leDesc (a b : KeptItem) : Bool := decide (b.pub_dt ≤ a.pub_dt)

/-- Embeds kept.sort(key=pub_dt, reverse=True). -/
def sortKept (kept : List KeptItem) : List KeptItem := kept.mergeSort leDesc

/-- One record of the structured JSON document. -/
structure JsonRec where
  title : String
  link : String
  doctor : String
  published_at : String
  text : String
  therapy : String
  images : List String
  id : String
deriving DecidableEq, Repr

/-- The JSON projection of one kept item. -/
def toJsonRec (it : KeptItem) : JsonRec :=
  { title := it.title, link := it.link, doctor := it.doctor,
    published_at := isoFormat it.pub_dt, text := it.text,
    therapy := it.therapy, images := it.images, id := it.id }

/-- The content of one written output file. -/
inductive FileContent where
  | xml (s : String)
  | jsonDoc (recs : List JsonRec)
deriving DecidableEq, Repr

/-- What a run produces: the written files in write order, and the exit
code returned by main. -/
structure RunOutputs where
  files : List (String × FileContent)
  exitCode : Nat
deriving DecidableEq, Repr

/-- How the try block around collection ended: either it completed with
the kept list, or it raised somewhere and kept holds whatever had been
appended before the failure (possibly nothing, as for a failed listing
fetch or missing credentials, whose error is raised inside the block). -/
inductive RunOutcome where
  | completed (kept : List KeptItem)
  | crashed (keptSoFar : List KeptItem)
deriving DecidableEq, Repr

/-- The kept list available after the try block, on either path. -/
def keptOfOutcome : RunOutcome → List KeptItem
  | .completed k => k
  | .crashed k => k

/-- The unconditional tail of main: sort descending, truncate, write the
feed and the JSON document, return 0. -/
def mainFinish (T : Int) (maxItems : Nat) (kept : List KeptItem) : RunOutputs :=
  let final := (sortKept kept).take maxItems
  { files := [(OUTPUT_RSS, FileContent.xml (build_rss T final)),
              (OUTPUT_JSON, FileContent.jsonDoc (final.map toJsonRec))],
    exitCode := 0 }

/-- Embeds main after the try block: whatever the outcome, the same
unconditional tail runs. -/
def mainRun (T : Int) (maxItems : Nat) (o : RunOutcome) : RunOutputs :=
  mainFinish T maxItems (keptOfOutcome o)

/-! ### The identity store

Modelled from the spec: the source has no identity store at all, so the
component is modelled from section 3 and section 6 of the spec: a set of
opaque string ids persisted as a sorted list, read back leniently (an
absent or unparseable file yields the empty set).  The persisted form is a
JSON style array of quoted strings with backslash escaping. -/

/-- Escape of one character inside a stored string. -/
def jsonEscChar (c : Char) : List Char :=
  if c = quotC then [bsC, quotC] else if c = bsC then [bsC, bsC] else [c]

/-- The stored characters of the items of a list, with separators and the
closing bracket; the opening bracket is added by saveStore. -/
def renderItems : List String → List Char
  | [] => [']']
  | [s] => quotC :: (s.data.flatMap jsonEscChar ++ [quotC, ']'])
  | s :: s2 :: tl => quotC :: (s.data.flatMap jsonEscChar ++ [quotC, ','] ++ renderItems (s2 :: tl))

/-- The persisted order: sorted with duplicates removed. -/
def sortedDedup (ids : List String) : List String :=
  (ids.dedup).mergeSort (fun a b => decide (a ≤ b))

/-- Modelled from the spec: write the identity store as a sorted list. -/
def saveStore (ids : List String) : String :=
  String.mk ('[' :: renderItems (sortedDedup ids))

/-- Decode one stored string after its opening quote; returns the decoded
characters and the remainder after the closing quote. -/
def parseStr : List Char → Option (List Char × List Char)
  | [] => none
  | c :: cs =>
    if c = quotC then some ([], cs)
    else if c = bsC then
      match cs with
      | [] => none
      | e :: cs2 =>
        match parseStr cs2 with
        | some (s, r) => some (e :: s, r)
        | none => none
    else
      match parseStr cs with
      | some (s, r) => some (c :: s, r)
      | none => none

/-- Termination measure fact for the list parser below: decoding one
string consumes at least its closing quote. -/
theorem parseStr_length : ∀ (l : List Char) (s r : List Char),
    parseStr l = some (s, r) → r.length < l.length
  | [], s, r => by simp [parseStr]
  | c :: cs, s, r => by
    unfold parseStr
    split
    · intro h
      simp only [Option.some.injEq, Prod.mk.injEq] at h
      simp [← h.2]
    · split
      · cases cs with
        | nil => simp
        | cons e cs2 =>
          cases h2 : parseStr cs2 with
          | none => simp [h2]
          | some v =>
            obtain ⟨v1, v2⟩ := v
            simp only [h2]
            intro h
            simp only [Option.some.injEq, Prod.mk.injEq] at h
            obtain ⟨hs, hr⟩ := h
            subst hr
            have := parseStr_length cs2 v1 v2 h2
            simp only [List.length_cons]
            omega
      · cases h2 : parseStr cs with
        | none => simp [h2]
        | some v =>
          obtain ⟨v1, v2⟩ := v
          simp only [h2]
          intro h
          simp only [Option.some.injEq, Prod.mk.injEq] at h
          obtain ⟨hs, hr⟩ := h
          subst hr
          have := parseStr_length cs v1 v2 h2
          simp only [List.length_cons]
          omega

/-- Decode the item list after the opening bracket: either the closing
bracket ending the input, or quoted strings separated by commas. -/
def parseListGo (l : List Char) : Option (List String) :=
  match l with
  | [] => none
  | c :: cs =>
    if c = ']' then (if cs = [] then some [] else none)
    else if c = quotC then
      match h : parseStr cs with
      | none => none
      | some (s, r) =>
        match r with
        | ']' :: rtail => if rtail = [] then some [String.mk s] else none
        | ',' :: rtail =>
          match parseListGo rtail with
          | none => none
          | some tl => some (String.mk s :: tl)
        | _ => none
    else none
termination_by l.length
decreasing_by
  have := parseStr_length cs s (',' :: rtail) h
  simp only [List.length_cons] at *
  omega

/-- Modelled from the spec: parse a stored identity list; none on any
malformed content. -/
def parseStore (s : String) : Option (List String) :=
  match s.data with
  | '[' :: rest => parseListGo rest
  | _ => none

/-- Modelled from the spec: load the identity store; an absent file
(none) or unparseable content yields the empty set, never an error. -/
def loadStore (file : Option String) : List String :=
  match file with
  | none => []
  | some content => (parseStore content).getD []

/-! ## Supporting lemmas -/

/-- Splitting takeWhile and dropWhile over an append whose first part all
satisfies the predicate and whose second part starts with a failure. -/
theorem takeWhile_dropWhile_append {α} (p : α → Bool) :
    ∀ (xs ys : List α), (∀ x ∈ xs, p x = true) →
      (∀ c, ys.head? = some c → p c = false) →
      (xs ++ ys).takeWhile p = xs ∧ (xs ++ ys).dropWhile p = ys
  | [], ys, _, h2 => by
    cases ys with
    | nil => simp
    | cons y ys2 =>
      have hy := h2 y rfl
      simp [List.takeWhile_cons, List.dropWhile_cons, hy]
  | x :: xs, ys, h1, h2 => by
    have hx := h1 x (by simp)
    have ih := takeWhile_dropWhile_append p xs ys (fun a ha => h1 a (by simp [ha])) h2
    simp [List.takeWhile_cons, List.dropWhile_cons, hx, ih.1, ih.2]

/-- A whitespace character is not a digit. -/
theorem isSpc_not_digit {c : Char} (h : isSpc c = true) : c.isDigit = false := by
  simp only [isSpc, Bool.or_eq_true, decide_eq_true_eq] at h
  rcases h with ((((h | h) | h) | h) | h) | h <;> subst h <;> decide

/-- A whitespace character is not the letter s. -/
theorem isSpc_ne_s {c : Char} (h : isSpc c = true) : c ≠ 's' := by
  simp only [isSpc, Bool.or_eq_true, decide_eq_true_eq] at h
  rcases h with ((((h | h) | h) | h) | h) | h <;> subst h <;> decide

/-- Every unit word starts with a lowercase letter: not a digit, not
whitespace. -/
theorem unitChars_head (u : TimeUnit) :
    ∃ c rest, unitChars u = c :: rest ∧ c.isDigit = false ∧ isSpc c = false := by
  cases u <;> exact ⟨_, _, rfl, by decide, by decide⟩

/-- Inversion for matchUnit: success consumes exactly the unit word. -/
theorem matchUnit_eq {l : List Char} {u : TimeUnit} {r : List Char}
    (h : matchUnit l = some (u, r)) : l = unitChars u ++ r := by
  unfold matchUnit at h
  split at h <;>
    first
    | exact Option.noConfusion h
    | (simp only [Option.some.injEq, Prod.mk.injEq] at h
       obtain ⟨h1, h2⟩ := h
       subst h1
       subst h2
       rfl)

/-- matchUnit recognizes each unit word at the head. -/
theorem matchUnit_prepend (u : TimeUnit) (rest : List Char) :
    matchUnit (unitChars u ++ rest) = some (u, rest) := by
  cases u <;> rfl

/-- Inversion for matchAgo. -/
theorem matchAgo_eq {l : List Char} (h : matchAgo l = true) :
    ∃ post, l = 'a' :: 'g' :: 'o' :: post := by
  unfold matchAgo at h
  split at h
  · exact ⟨_, rfl⟩
  · cases h

/-- dropS leaves a list alone when its head is not the letter s. -/
theorem dropS_of_head_ne {l : List Char} (h : ∀ t, l ≠ 's' :: t) : dropS l = l := by
  unfold dropS
  split
  · rename_i t
    exact absurd rfl (h t)
  · rfl

/-- Soundness of the head matcher: success exhibits a body decomposition. -/
theorem matchAt_sound {l : List Char} {n : Nat} {u : TimeUnit}
    (h : matchAt l = some (n, u)) : RelAgeBody l n u := by
  unfold matchAt at h
  split at h
  · cases h
  · rename_i hne
    split at h
    · cases h
    · rename_i v u2 r3 heq
      split at h
      · rename_i hago
        simp only [Option.some.injEq, Prod.mk.injEq] at h
        obtain ⟨hn, hu⟩ := h
        subst hu
        obtain ⟨post, hpost⟩ := matchAgo_eq hago
        obtain ⟨ps, r4, hps_eq, hps_or, hdropS⟩ :
            ∃ ps r4, r3 = ps ++ r4 ∧ (ps = [] ∨ ps = ['s']) ∧ dropS r3 = r4 := by
          cases r3 with
          | nil => exact ⟨[], [], rfl, Or.inl rfl, rfl⟩
          | cons c t =>
            by_cases hc : c = 's'
            · subst hc; exact ⟨['s'], t, rfl, Or.inr rfl, rfl⟩
            · refine ⟨[], c :: t, rfl, Or.inl rfl, dropS_of_head_ne ?_⟩
              intro t2 ht2
              injection ht2 with h1 _
              exact hc h1
        have hl1 := List.takeWhile_append_dropWhile Char.isDigit l
        have hr1 := List.takeWhile_append_dropWhile isSpc
          (l.dropWhile Char.isDigit)
        have hr2 := matchUnit_eq heq
        have hr4 := List.takeWhile_append_dropWhile isSpc (dropS r3)
        refine ⟨l.takeWhile Char.isDigit,
                (l.dropWhile Char.isDigit).takeWhile isSpc, ps,
                (dropS r3).takeWhile isSpc, post, ?_, ?_, ?_, ?_, ?_, hps_or, hn⟩
        · simp only [List.append_assoc]
          rw [← hpost, hr4, hdropS, ← hps_eq, ← hr2, hr1, hl1]
        · intro hnil
          rw [hnil] at hne
          exact hne rfl
        · intro c hc; exact List.mem_takeWhile_imp hc
        · intro c hc; exact List.mem_takeWhile_imp hc
        · intro c hc; exact List.mem_takeWhile_imp hc
      · cases h

/-- Completeness of the head matcher: a body decomposition at the head is
recognized. -/
theorem matchAt_complete {l : List Char} {n : Nat} {u : TimeUnit}
    (hb : RelAgeBody l n u) : matchAt l = some (n, u) := by
  obtain ⟨ds, w1, ps, w2, post, hl, hne, hdig, hw1, hw2, hps, hn⟩ := hb
  obtain ⟨c0, rest0, hu0, hd0, hs0⟩ := unitChars_head u
  subst hl
  simp only [List.append_assoc]
  obtain ⟨htake1, hdrop1⟩ := takeWhile_dropWhile_append Char.isDigit ds
      (w1 ++ (unitChars u ++ (ps ++ (w2 ++ ('a' :: 'g' :: 'o' :: post)))))
      hdig (by
        cases w1 with
        | nil =>
          rw [hu0]
          intro c hc
          simp only [List.nil_append, List.cons_append, List.head?_cons,
            Option.some.injEq] at hc
          subst hc; exact hd0
        | cons a w1t =>
          intro c hc
          simp only [List.cons_append, List.head?_cons, Option.some.injEq] at hc
          subst hc
          exact isSpc_not_digit (hw1 a (by simp)))
  obtain ⟨htake2, hdrop2⟩ := takeWhile_dropWhile_append isSpc w1
      (unitChars u ++ (ps ++ (w2 ++ ('a' :: 'g' :: 'o' :: post))))
      hw1 (by
        rw [hu0]
        intro c hc
        simp only [List.cons_append, List.head?_cons, Option.some.injEq] at hc
        subst hc; exact hs0)
  obtain ⟨htake3, hdrop3⟩ := takeWhile_dropWhile_append isSpc w2
      ('a' :: 'g' :: 'o' :: post) hw2
      (by intro c hc; simp only [List.head?_cons, Option.some.injEq] at hc
          subst hc; decide)
  have hdropS : dropS (ps ++ (w2 ++ ('a' :: 'g' :: 'o' :: post))) =
      w2 ++ ('a' :: 'g' :: 'o' :: post) := by
    rcases hps with rfl | rfl
    · apply dropS_of_head_ne
      intro t ht
      cases w2 with
      | nil =>
        simp only [List.nil_append] at ht
        injection ht with h1 _
        exact absurd h1 (by decide)
      | cons a w2t =>
        simp only [List.nil_append, List.cons_append] at ht
        injection ht with h1 _
        exact isSpc_ne_s (hw2 a (by simp)) h1
    · rfl
  have hdsEmpty : (ds : List Char).isEmpty = false := by
    cases ds with
    | nil => exact absurd rfl hne
    | cons a t => rfl
  unfold matchAt
  rw [htake1, hdrop1, hdrop2, matchUnit_prepend]
  rw [if_neg (by rw [hdsEmpty]; exact Bool.false_ne_true)]
  show (if matchAgo (List.dropWhile isSpc (dropS (ps ++ (w2 ++ 'a' :: 'g' :: 'o' :: post)))) = true
      then some (digitsToNat ds, u) else none) = some (n, u)
  rw [hdropS, hdrop3]
  simp [matchAgo, hn]

/-- Soundness of the search: success exhibits an occurrence. -/
theorem relSearch_sound : ∀ {l : List Char} {n : Nat} {u : TimeUnit},
    relSearch l = some (n, u) → HasRelAge l n u := by
  intro l
  induction l with
  | nil => intro n u h; cases h
  | cons c cs ih =>
    intro n u h
    unfold relSearch at h
    cases hm : matchAt (c :: cs) with
    | some r =>
      rw [hm] at h
      obtain ⟨r1, r2⟩ := r
      simp only [Option.some.injEq, Prod.mk.injEq] at h
      obtain ⟨h1, h2⟩ := h
      subst h1; subst h2
      exact ⟨[], c :: cs, rfl, matchAt_sound hm⟩
    | none =>
      rw [hm] at h
      obtain ⟨pre, rest, heq, hb⟩ := ih h
      exact ⟨c :: pre, rest, by simp [heq], hb⟩

/-- Completeness of the search: an occurrence anywhere makes it succeed. -/
theorem relSearch_some_of_body : ∀ (pre rest : List Char) (n : Nat) (u : TimeUnit),
    RelAgeBody rest n u → ∃ r, relSearch (pre ++ rest) = some r := by
  intro pre
  induction pre with
  | nil =>
    intro rest n u hb
    have hm := matchAt_complete hb
    obtain ⟨ds, w1, ps, w2, post, hl, hne, -⟩ := hb
    cases hrest : rest with
    | nil =>
      rw [hrest] at hl
      cases hds : ds with
      | nil => exact absurd hds hne
      | cons a t => rw [hds] at hl; simp at hl
    | cons a t =>
      refine ⟨(n, u), ?_⟩
      simp only [List.nil_append]
      unfold relSearch
      rw [hrest] at hm
      rw [hm]
  | cons c pre2 ih =>
    intro rest n u hb
    obtain ⟨r, hr⟩ := ih rest n u hb
    simp only [List.cons_append]
    unfold relSearch
    cases hm : matchAt (c :: (pre2 ++ rest)) with
    | some r2 => exact ⟨r2, rfl⟩
    | none => exact ⟨r, hr⟩

/-- Evaluation bridge: a successful search fixes the parser result. -/
theorem parse_eval {text : String} {n : Nat} {u : TimeUnit}
    (hne : text ≠ "") (h : relSearch (processText text) = some (n, u)) (T : Int) :
    parse_relative_age_to_dt T text = some (T - unitSeconds u * n) := by
  unfold parse_relative_age_to_dt
  rw [if_neg hne, h]

/-- Evaluation bridge: a failed search means no hint. -/
theorem parse_eval_none {text : String}
    (h : relSearch (processText text) = none) (T : Int) :
    parse_relative_age_to_dt T text = none := by
  unfold parse_relative_age_to_dt
  split
  · rfl
  · rw [h]

/-- filterMap ignores a filter that only removes elements it maps to
none anyway. -/
theorem filterMap_filter_of_none {α β} (p : α → Bool) (f : α → Option β)
    (h : ∀ x, p x = false → f x = none) :
    ∀ l : List α, (l.filter p).filterMap f = l.filterMap f := by
  intro l
  induction l with
  | nil => rfl
  | cons x xs ih =>
    cases hp : p x with
    | true =>
      rw [List.filter_cons_of_pos hp, List.filterMap_cons, List.filterMap_cons, ih]
    | false =>
      rw [List.filter_cons_of_neg (by simp [hp]), List.filterMap_cons, h x hp, ih]

/-- Characterization of one loop step of main: which items it keeps. -/
theorem processTile_eq_some {guid : String → String}
    {extract : String → Option CaseData} {T : Int} {t : TileCand} {x : KeptItem} :
    processTile guid extract T t = some x ↔
      ∃ d pd, extract t.link = some d ∧ effectiveDt t d = some pd ∧
        cutoffOf T ≤ pd ∧ x = buildKept guid t d pd := by
  unfold processTile
  constructor
  · intro h
    split at h
    · cases h
    · rename_i d he
      split at h
      · cases h
      · rename_i pd hf
        split at h
        · cases h
        · rename_i hc
          injection h with h1
          exact ⟨d, pd, he, hf, le_of_not_lt hc, h1.symm⟩
  · rintro ⟨d, pd, hd, hpd, hle, hx⟩
    rw [hd]
    show (match effectiveDt t d with
      | none => none
      | some pd2 => if pd2 < cutoffOf T then none
          else some (buildKept guid t d pd2)) = some x
    rw [hpd]
    show (if pd < cutoffOf T then none else some (buildKept guid t d pd)) = some x
    rw [if_neg (not_lt_of_le hle), hx]

/-- The pre filter removes only tiles the loop would drop anyway. -/
theorem keptOf_collapse (guid : String → String)
    (extract : String → Option CaseData) (T : Int) (tiles : List TileCand) :
    keptOf guid extract T tiles = tiles.filterMap (processTile guid extract T) := by
  unfold keptOf prelimFilter
  apply filterMap_filter_of_none
  intro t hp
  cases hdt : t.pub_dt with
  | none => rw [hdt] at hp; cases hp
  | some d =>
    rw [hdt] at hp
    simp only [decide_eq_false_iff_not, not_le] at hp
    unfold processTile
    cases he : extract t.link with
    | none => rfl
    | some cd =>
      have heff : effectiveDt t cd = some d := by unfold effectiveDt; rw [hdt]
      show (match effectiveDt t cd with
        | none => none
        | some pd => if pd < cutoffOf T then none
            else some (buildKept guid t cd pd)) = none
      rw [heff]
      show (if d < cutoffOf T then none else some (buildKept guid t cd d)) = none
      rw [if_pos hp]

/-- Every candidate of the anchor fallback matches the case pattern. -/
theorem collectAnchors_pattern {join : String → String → String}
    {anchors : List String} {m : Nat} {c : TileCand}
    (h : c ∈ collectAnchors join anchors m) : strContains c.link casePat = true := by
  unfold collectAnchors at h
  have h2 := List.mem_of_mem_take h
  rw [List.mem_filterMap] at h2
  obtain ⟨a, ha, heq⟩ := h2
  split at heq
  · cases heq
  · rename_i u habs
    split at heq
    · rename_i hpat
      injection heq with h1
      rw [← h1]
      exact hpat
    · cases heq

/-- Every candidate of the tile walk matches the case pattern. -/
theorem collectTilesGo_pattern (join : String → String → String) (T : Int) :
    ∀ (ts : List Tile) (seen : List String) (c : TileCand),
      c ∈ collectTilesGo join T seen ts → strContains c.link casePat = true := by
  intro ts
  induction ts with
  | nil => intro seen c h; simp [collectTilesGo] at h
  | cons t ts ih =>
    intro seen c h
    cases hfh : t.firstHref with
    | none =>
      rw [show collectTilesGo join T seen (t :: ts) = collectTilesGo join T seen ts from by
        simp [collectTilesGo, hfh]] at h
      exact ih seen c h
    | some href =>
      cases habs : abs_url join baseUrl href with
      | none =>
        rw [show collectTilesGo join T seen (t :: ts) = collectTilesGo join T seen ts from by
          simp [collectTilesGo, hfh, habs]] at h
        exact ih seen c h
      | some u =>
        by_cases hpat : strContains u casePat = true
        · by_cases hseen : u ∈ seen
          · rw [show collectTilesGo join T seen (t :: ts) =
                collectTilesGo join T seen ts from by
              simp [collectTilesGo, hfh, habs, hpat, hseen]] at h
            exact ih seen c h
          · rw [show collectTilesGo join T seen (t :: ts) =
                { link := u, pub_dt := parse_relative_age_to_dt T (norm t.text) } ::
                  collectTilesGo join T (u :: seen) ts from by
              simp [collectTilesGo, hfh, habs, hpat, hseen]] at h
            rcases List.mem_cons.mp h with rfl | h2
            · exact hpat
            · exact ih (u :: seen) c h2
        · rw [show collectTilesGo join T seen (t :: ts) = collectTilesGo join T seen ts from by
            simp [collectTilesGo, hfh, habs, hpat]] at h
          exact ih seen c h

/-- The tile walk never emits a link twice nor a link from the seen set. -/
theorem collectTilesGo_nodup (join : String → String → String) (T : Int) :
    ∀ (ts : List Tile) (seen : List String),
      ((collectTilesGo join T seen ts).map TileCand.link).Nodup ∧
      ∀ u ∈ (collectTilesGo join T seen ts).map TileCand.link, u ∉ seen := by
  intro ts
  induction ts with
  | nil => intro seen; refine ⟨by simp [collectTilesGo], by simp [collectTilesGo]⟩
  | cons t ts ih =>
    intro seen
    cases hfh : t.firstHref with
    | none =>
      rw [show collectTilesGo join T seen (t :: ts) = collectTilesGo join T seen ts from by
        simp [collectTilesGo, hfh]]
      exact ih seen
    | some href =>
      cases habs : abs_url join baseUrl href with
      | none =>
        rw [show collectTilesGo join T seen (t :: ts) = collectTilesGo join T seen ts from by
          simp [collectTilesGo, hfh, habs]]
        exact ih seen
      | some u =>
        by_cases hpat : strContains u casePat = true
        · by_cases hseen : u ∈ seen
          · rw [show collectTilesGo join T seen (t :: ts) =
                collectTilesGo join T seen ts from by
              simp [collectTilesGo, hfh, habs, hpat, hseen]]
            exact ih seen
          · rw [show collectTilesGo join T seen (t :: ts) =
                { link := u, pub_dt := parse_relative_age_to_dt T (norm t.text) } ::
                  collectTilesGo join T (u :: seen) ts from by
              simp [collectTilesGo, hfh, habs, hpat, hseen]]
            have ihh := ih (u :: seen)
            constructor
            · simp only [List.map_cons]
              refine List.nodup_cons.mpr ⟨?_, ihh.1⟩
              intro hmem
              exact (ihh.2 u hmem) (by simp)
            · intro v hv
              simp only [List.map_cons, List.mem_cons] at hv
              rcases hv with rfl | hv
              · exact hseen
              · intro hvseen
                exact (ihh.2 v hv) (by simp [hvseen])
        · rw [show collectTilesGo join T seen (t :: ts) = collectTilesGo join T seen ts from by
            simp [collectTilesGo, hfh, habs, hpat]]
          exact ih seen

/-- One stored string opens with its quote and decodes to itself. -/
theorem parseStr_quot (rest : List Char) : parseStr (quotC :: rest) = some ([], rest) := by
  unfold parseStr
  rw [if_pos rfl]

/-- Decoding steps over an escape pair. -/
theorem parseStr_cons_escape (e : Char) (cs : List Char) {s r : List Char}
    (h : parseStr cs = some (s, r)) : parseStr (bsC :: e :: cs) = some (e :: s, r) := by
  unfold parseStr
  rw [if_neg (by decide : ¬ bsC = quotC), if_pos rfl]
  show (match parseStr cs with
    | some (s, r) => some (e :: s, r)
    | none => none) = some (e :: s, r)
  rw [h]

/-- Decoding steps over a plain character. -/
theorem parseStr_cons_plain {c : Char} (hq : c ≠ quotC) (hb : c ≠ bsC) (cs : List Char)
    {s r : List Char} (h : parseStr cs = some (s, r)) :
    parseStr (c :: cs) = some (c :: s, r) := by
  unfold parseStr
  rw [if_neg hq, if_neg hb]
  show (match parseStr cs with
    | some (s, r) => some (c :: s, r)
    | none => none) = some (c :: s, r)
  rw [h]

/-- Decoding inverts encoding of one string up to its closing quote. -/
theorem parseStr_render : ∀ (s rest : List Char),
    parseStr (s.flatMap jsonEscChar ++ (quotC :: rest)) = some (s, rest) := by
  intro s
  induction s with
  | nil =>
    intro rest
    simp only [List.flatMap_nil, List.nil_append]
    exact parseStr_quot rest
  | cons c cs ih =>
    intro rest
    simp only [List.flatMap_cons, List.append_assoc]
    unfold jsonEscChar
    by_cases h1 : c = quotC
    · subst h1
      rw [if_pos rfl]
      exact parseStr_cons_escape quotC _ (ih rest)
    · rw [if_neg h1]
      by_cases h2 : c = bsC
      · subst h2
        rw [if_pos rfl]
        exact parseStr_cons_escape bsC _ (ih rest)
      · rw [if_neg h2]
        exact parseStr_cons_plain h1 h2 _ (ih rest)

/-- The list parser inverts the renderer. -/
theorem parseListGo_render : ∀ ids : List String,
    parseListGo (renderItems ids) = some ids
  | [] => by
    show parseListGo [']'] = some []
    rw [parseListGo]
    rw [if_pos rfl, if_pos rfl]
  | [s] => by
    show parseListGo (quotC :: (s.data.flatMap jsonEscChar ++ [quotC, ']'])) = some [s]
    have hps : parseStr (s.data.flatMap jsonEscChar ++ [quotC, ']']) =
        some (s.data, [']']) := parseStr_render s.data [']']
    rw [parseListGo]
    rw [if_neg (by decide : ¬ quotC = ']'), if_pos rfl]
    split
    · rename_i h
      exact Option.noConfusion (hps.symm.trans h)
    · rename_i s0 r0 h
      have he := hps.symm.trans h
      simp only [Option.some.injEq, Prod.mk.injEq] at he
      obtain ⟨hs0, hr0⟩ := he
      subst hs0
      subst hr0
      rfl
  | s :: s2 :: tl => by
    have hrend : renderItems (s :: s2 :: tl) =
        quotC :: (s.data.flatMap jsonEscChar ++
          (quotC :: ',' :: renderItems (s2 :: tl))) := by
      simp [renderItems, List.append_assoc]
    rw [hrend]
    have hps : parseStr (s.data.flatMap jsonEscChar ++
        (quotC :: ',' :: renderItems (s2 :: tl))) =
        some (s.data, ',' :: renderItems (s2 :: tl)) :=
      parseStr_render s.data (',' :: renderItems (s2 :: tl))
    rw [parseListGo]
    rw [if_neg (by decide : ¬ quotC = ']'), if_pos rfl]
    split
    · rename_i h
      exact Option.noConfusion (hps.symm.trans h)
    · rename_i s0 r0 h
      have he := hps.symm.trans h
      simp only [Option.some.injEq, Prod.mk.injEq] at he
      obtain ⟨hs0, hr0⟩ := he
      subst hs0
      subst hr0
      show (match parseListGo (renderItems (s2 :: tl)) with
        | none => none
        | some tl2 => some (String.mk s.data :: tl2)) = some (s :: s2 :: tl)
      rw [parseListGo_render (s2 :: tl)]

/-- Loading a saved store returns exactly the sorted deduplicated ids. -/
theorem loadStore_saveStore (ids : List String) :
    loadStore (some (saveStore ids)) = sortedDedup ids := by
  show (parseStore (saveStore ids)).getD [] = sortedDedup ids
  unfold saveStore parseStore
  rw [show (String.mk ('[' :: renderItems (sortedDedup ids))).data =
    '[' :: renderItems (sortedDedup ids) from rfl]
  show (parseListGo (renderItems (sortedDedup ids))).getD [] = sortedDedup ids
  rw [parseListGo_render]
  rfl

/-- A stable sort does not disturb the subsequence of elements picked out
by a predicate whose holders are all equivalent under the comparison. -/
theorem mergeSort_filter_eq {α} (le : α → α → Bool) (p : α → Bool) (l : List α)
    (htrans : ∀ a b c, le a b = true → le b c = true → le a c = true)
    (htotal : ∀ a b, (le a b || le b a) = true)
    (hp : ∀ a b, p a = true → p b = true → le a b = true) :
    (l.mergeSort le).filter p = l.filter p := by
  have hpair : (l.filter p).Pairwise (fun a b => le a b = true) :=
    List.pairwise_of_forall_mem_list (fun a ha b hb =>
      hp a b (List.of_mem_filter ha) (List.of_mem_filter hb))
  have hsub : List.Sublist (l.filter p) (l.mergeSort le) :=
    List.sublist_mergeSort htrans htotal hpair (List.filter_sublist l)
  have hsub2 : List.Sublist ((l.filter p).filter p) ((l.mergeSort le).filter p) :=
    List.Sublist.filter p hsub
  have hself : (l.filter p).filter p = l.filter p :=
    List.filter_eq_self.mpr (fun a ha => List.of_mem_filter ha)
  rw [hself] at hsub2
  have hperm : List.Perm ((l.mergeSort le).filter p) (l.filter p) :=
    List.Perm.filter p (List.mergeSort_perm l le)
  exact (hsub2.eq_of_length hperm.length_eq.symm).symm

/-- The descending comparison is transitive. -/
theorem leDesc_trans : ∀ a b c : KeptItem,
    leDesc a b = true → leDesc b c = true → leDesc a c = true := by
  intro a b c
  simp only [leDesc, decide_eq_true_eq]
  omega

/-- The descending comparison is total. -/
theorem leDesc_total : ∀ a b : KeptItem, (leDesc a b || leDesc b a) = true := by
  intro a b
  simp only [leDesc, Bool.or_eq_true, decide_eq_true_eq]
  omega

/-- A character is markup safe when it is none of the four delimiters
(the ampersand only ever appears opening one of the five entities). -/
def escSafe (c : Char) : Bool := !(c = '<' || c = '>' || c = quotC || c = aposC)

/-- Every character the escaper emits is markup safe. -/
theorem escChar_safe (c : Char) : (escChar c).all escSafe = true := by
  unfold escChar
  split_ifs with h1 h2 h3 h4 h5
  · decide
  · decide
  · decide
  · decide
  · decide
  · simp [escSafe, h2, h3, h4, h5]

/-- Every character of an escaped string is markup safe. -/
theorem esc_safe (s : String) : (esc s).data.all escSafe = true := by
  show (s.data.flatMap escChar).all escSafe = true
  rw [List.all_eq_true]
  intro x hx
  rw [List.mem_flatMap] at hx
  obtain ⟨c, -, hx⟩ := hx
  exact List.all_eq_true.mp (escChar_safe c) x hx

/-- The per item feed lines factor through the escaped projection: every
interpolated value is an esc image. -/
theorem itemLines_factor (it : KeptItem) :
    itemLines it = itemLinesT (escItemOf it) := by
  unfold itemLines itemLinesT escItemOf
  by_cases hd : descParts it = [] <;> cases himg : it.images <;>
    simp [hd, himg]

/-- The whole line list factors through the escaped projections. -/
theorem rssLines_factor (T : Int) (items : List KeptItem) :
    rssLines T items = headerLinesT (esc LIST_URL) T ++
      (items.map escItemOf).flatMap itemLinesT ++ ["</channel>", "</rss>"] := by
  unfold rssLines
  rw [show headerLines T = headerLinesT (esc LIST_URL) T from rfl]
  have hmid : items.flatMap itemLines = (items.map escItemOf).flatMap itemLinesT := by
    induction items with
    | nil => rfl
    | cons it its ih =>
      simp only [List.flatMap_cons, List.map_cons, ih, itemLines_factor it]
  rw [hmid]

/-! ## Claim theorems -/

/-- C2: at run time T the relative age parser returns T minus the stated
duration for strings containing digits, a unit word in minute, hour, day,
week, month, year, an optional plural s and the word ago (after
lowercasing, with word bounded a or an read as 1, weeks as 7 days, months
as 30 days, years as 365 days), and returns no hint for any string with
no such occurrence; in particular 2 hours ago gives T minus 2 hours, a
day ago gives T minus 24 hours, 1 week ago gives T minus 7 days. -/
theorem claim_C2_relative_age :
    (∀ T : Int,
      parse_relative_age_to_dt T "2 hours ago" = some (T - 7200) ∧
      parse_relative_age_to_dt T "a day ago" = some (T - 86400) ∧
      parse_relative_age_to_dt T "1 week ago" = some (T - 604800) ∧
      parse_relative_age_to_dt T "yesterday" = none) ∧
    (∀ (T : Int) (text : String),
      parse_relative_age_to_dt T text = none ↔
        ¬ ∃ n u, HasRelAge (processText text) n u) ∧
    (∀ (T : Int) (text : String) (d : Int),
      parse_relative_age_to_dt T text = some d →
        ∃ n u, HasRelAge (processText text) n u ∧ d = T - unitSeconds u * n) := by
  refine ⟨?_, ?_, ?_⟩
  · intro T
    refine ⟨?_, ?_, ?_, ?_⟩
    · rw [parse_eval (by decide) (by decide : relSearch (processText "2 hours ago") =
        some (2, TimeUnit.hour)) T]
      norm_num [unitSeconds]
    · rw [parse_eval (by decide) (by decide : relSearch (processText "a day ago") =
        some (1, TimeUnit.day)) T]
      norm_num [unitSeconds]
    · rw [parse_eval (by decide) (by decide : relSearch (processText "1 week ago") =
        some (1, TimeUnit.week)) T]
      norm_num [unitSeconds]
    · exact parse_eval_none (by decide) T
  · intro T text
    constructor
    · intro h hex
      obtain ⟨n, u, pre, rest, heq, hb⟩ := hex
      have hsome := relSearch_some_of_body pre rest n u hb
      rw [← heq] at hsome
      obtain ⟨r, hr⟩ := hsome
      obtain ⟨r1, r2⟩ := r
      by_cases ht : text = ""
      · subst ht
        simp [relSearch, show processText "" = [] from rfl] at hr
      · unfold parse_relative_age_to_dt at h
        rw [if_neg ht, hr] at h
        cases h
    · intro hno
      by_cases ht : text = ""
      · subst ht; rfl
      · unfold parse_relative_age_to_dt
        rw [if_neg ht]
        cases hr : relSearch (processText text) with
        | none => rfl
        | some r =>
          obtain ⟨n, u⟩ := r
          exact absurd ⟨n, u, relSearch_sound hr⟩ hno
  · intro T text d h
    by_cases ht : text = ""
    · subst ht
      simp [parse_relative_age_to_dt] at h
    · unfold parse_relative_age_to_dt at h
      rw [if_neg ht] at h
      cases hr : relSearch (processText text) with
      | none => rw [hr] at h; cases h
      | some r =>
        obtain ⟨n, u⟩ := r
        rw [hr] at h
        simp only [Option.some.injEq] at h
        exact ⟨n, u, relSearch_sound hr, h.symm⟩

/-- Witness for C2 at the concrete input 2 hours ago and run time 0. -/
theorem claim_C2_witness :
    ∃ n u, HasRelAge (processText "2 hours ago") n u ∧
      (0 : Int) - 7200 = 0 - unitSeconds u * n :=
  claim_C2_relative_age.2.2 0 "2 hours ago" (0 - 7200) (by decide)

/-- C1: the effective timestamp is the list hint when present, else the
detail page timestamp; an item (whose extraction succeeds) is kept by the
two stage filter exactly when its effective timestamp is known and at
least the run start minus 24 hours; on effective ages of one hour, 25
hours and unknown, exactly the one hour item survives. -/
theorem claim_C1_retention :
    (∀ (guid : String → String) (extract : String → Option CaseData) (T : Int)
       (tiles : List TileCand),
      keptOf guid extract T tiles = tiles.filterMap (processTile guid extract T)) ∧
    (∀ (guid : String → String) (extract : String → Option CaseData) (T : Int)
       (tiles : List TileCand) (x : KeptItem),
      x ∈ keptOf guid extract T tiles ↔
        ∃ t ∈ tiles, ∃ d pd, extract t.link = some d ∧ effectiveDt t d = some pd ∧
          cutoffOf T ≤ pd ∧ x = buildKept guid t d pd) ∧
    (keptOf (fun s => s) (fun _ => some ⟨"T", "", [], none, "", ""⟩) 0
        [⟨"A", some (-3600)⟩, ⟨"B", some (-90000)⟩, ⟨"C", none⟩]
      |>.map KeptItem.link) = ["A"] := by
  refine ⟨keptOf_collapse, ?_, by decide⟩
  intro guid extract T tiles x
  rw [keptOf_collapse]
  simp only [List.mem_filterMap, processTile_eq_some]

/-- Witness for C1: the one hour old item is retained at run time 0. -/
theorem claim_C1_witness :
    buildKept (fun s => s) ⟨"A", some (-3600)⟩ ⟨"T", "", [], none, "", ""⟩ (-3600) ∈
      keptOf (fun s => s) (fun _ => some ⟨"T", "", [], none, "", ""⟩) 0
        [⟨"A", some (-3600)⟩, ⟨"B", some (-90000)⟩, ⟨"C", none⟩] :=
  (claim_C1_retention.2.1 (fun s => s) (fun _ => some ⟨"T", "", [], none, "", ""⟩) 0
      [⟨"A", some (-3600)⟩, ⟨"B", some (-90000)⟩, ⟨"C", none⟩]
      (buildKept (fun s => s) ⟨"A", some (-3600)⟩ ⟨"T", "", [], none, "", ""⟩ (-3600))).mpr
    ⟨⟨"A", some (-3600)⟩, by decide, ⟨"T", "", [], none, "", ""⟩, -3600, rfl, rfl,
      by decide, rfl⟩

/-- C4 counterexample: an item with unknown effective timestamp is
dropped by the code even though the claimed flagged behavior (modelled
from the spec) would keep it with the run time as timestamp; the code has
no such flag. -/
theorem claim_C4_cex :
    processTile (fun s => s) (fun _ => some ⟨"T", "", [], none, "", ""⟩) 0
        ⟨"U", none⟩ = none ∧
    specProcessTileFlagged true (fun s => s)
        (fun _ => some ⟨"T", "", [], none, "", ""⟩) 0 ⟨"U", none⟩ =
      some (buildKept (fun s => s) ⟨"U", none⟩ ⟨"T", "", [], none, "", ""⟩ 0) ∧
    (none : Option KeptItem) ≠
      some (buildKept (fun s => s) ⟨"U", none⟩ ⟨"T", "", [], none, "", ""⟩ 0) := by
  refine ⟨by decide, by decide, by decide⟩

/-- C4 amended: an item whose effective timestamp is unknown is always
dropped; the source has no include undated flag and never substitutes the
run time. -/
theorem claim_C4_undated_dropped :
    ∀ (guid : String → String) (extract : String → Option CaseData) (T : Int)
      (t : TileCand) (d : CaseData),
      extract t.link = some d → effectiveDt t d = none →
        processTile guid extract T t = none := by
  intro guid extract T t d he hf
  simp [processTile, he, hf]

/-- Witness for the amended C4 at a concrete undated tile. -/
theorem claim_C4_witness :
    processTile (fun s => s) (fun _ => some ⟨"T", "", [], none, "", ""⟩) 0
      ⟨"U", none⟩ = none :=
  claim_C4_undated_dropped (fun s => s) (fun _ => some ⟨"T", "", [], none, "", ""⟩) 0
    ⟨"U", none⟩ ⟨"T", "", [], none, "", ""⟩ rfl rfl

/-- C3 counterexample: when the social preview strategy is missing and
the document title element yields the empty string (all strategies
exhausted without an error), the emitted title is the placeholder, not
the URL. -/
theorem claim_C3_cex :
    extract_title none (some "") "https://www.orthobullets.com/Site/Cases/View/1" =
      "Untitled case" ∧
    "Untitled case" ≠ "https://www.orthobullets.com/Site/Cases/View/1" :=
  ⟨by decide, by decide⟩

/-- C3 amended: the title is never empty; an empty or missing social
preview value falls through to the document title; the URL is used only
when reading the document title raises; strategies that are exhausted
with only empty or whitespace values yield the fixed placeholder. -/
theorem claim_C3_title :
    (∀ (og pt : Option String) (link : String), extract_title og pt link ≠ "") ∧
    (∀ (pt : Option String) (link : String),
      extract_title none pt link = extract_title (some "") pt link) ∧
    (∀ link : String,
      extract_title none none link =
        if norm link = "" then "Untitled case" else norm link) ∧
    (∀ (v link : String), norm v = "" →
      extract_title none (some v) link = "Untitled case") ∧
    (∀ (s : String) (pt : Option String) (link : String), s ≠ "" →
      extract_title (some s) pt link =
        if norm s = "" then "Untitled case" else norm s) := by
  refine ⟨?_, ?_, ?_, ?_, ?_⟩
  · intro og pt link
    unfold extract_title
    by_cases h : norm (rawTitle og pt link) = ""
    · rw [if_pos h]; decide
    · rw [if_neg h]; exact h
  · intro pt link
    unfold extract_title
    rw [show rawTitle none pt link = rawTitle (some "") pt link from by
      cases pt <;> rfl]
  · intro link
    unfold extract_title
    rw [show rawTitle none none link = link from rfl]
  · intro v link h
    unfold extract_title
    rw [show rawTitle none (some v) link = v from rfl, h]
    rfl
  · intro s pt link hs
    unfold extract_title
    rw [show rawTitle (some s) pt link = s from by simp [rawTitle, hs]]

/-- Witness for the amended C3: a whitespace only document title yields
the placeholder. -/
theorem claim_C3_witness :
    extract_title none (some " ") "https://www.orthobullets.com/Site/Cases/View/1" =
      "Untitled case" :=
  claim_C3_title.2.2.2.1 " " "https://www.orthobullets.com/Site/Cases/View/1"
    (by decide)

/-- C6 counterexample: the anchor fallback path keeps two candidates with
the same URL, so the no duplicates part of the claim fails there. -/
theorem claim_C6_cex :
    login_and_collect_tiles (fun b r => b ++ r) 0 []
        ["https://q/Site/Cases/View/9", "https://q/Site/Cases/View/9"] 60 =
      [{ link := "https://q/Site/Cases/View/9", pub_dt := none },
       { link := "https://q/Site/Cases/View/9", pub_dt := none }] ∧
    ¬ ((login_and_collect_tiles (fun b r => b ++ r) 0 []
          ["https://q/Site/Cases/View/9", "https://q/Site/Cases/View/9"] 60).map
        TileCand.link).Nodup :=
  ⟨by decide, by decide⟩

/-- C6 amended: on both paths the collector is bounded by the maximum
item count and keeps only links containing the case pattern; the first
occurrence wins dedup holds on the tile path only (the anchor fallback
does not dedup). -/
theorem claim_C6_collector :
    (∀ (join : String → String → String) (T : Int) (tiles : List Tile)
       (anchors : List String) (m : Nat),
      (login_and_collect_tiles join T tiles anchors m).length ≤ m) ∧
    (∀ (join : String → String → String) (T : Int) (tiles : List Tile)
       (anchors : List String) (m : Nat) (c : TileCand),
      c ∈ login_and_collect_tiles join T tiles anchors m →
        strContains c.link casePat = true) ∧
    (∀ (join : String → String → String) (T : Int) (tiles : List Tile) (m : Nat),
      ((collectTiles join T tiles m).map TileCand.link).Nodup) := by
  refine ⟨?_, ?_, ?_⟩
  · intro join T tiles anchors m
    unfold login_and_collect_tiles collectAnchors collectTiles
    split <;> exact List.length_take_le _ _
  · intro join T tiles anchors m c h
    unfold login_and_collect_tiles at h
    split at h
    · exact collectAnchors_pattern h
    · unfold collectTiles at h
      exact collectTilesGo_pattern join T tiles [] c (List.mem_of_mem_take h)
  · intro join T tiles m
    unfold collectTiles
    rw [List.map_take]
    exact List.Pairwise.sublist (List.take_sublist _ _)
      (collectTilesGo_nodup join T tiles []).1

/-- Witness for the amended C6: the single anchor candidate matches the
case pattern. -/
theorem claim_C6_witness :
    strContains ({ link := "https://q/Site/Cases/View/9", pub_dt := none } :
      TileCand).link casePat = true :=
  claim_C6_collector.2.1 (fun b r => b ++ r) 0 [] ["https://q/Site/Cases/View/9"] 60
    { link := "https://q/Site/Cases/View/9", pub_dt := none } (by decide)

/-- C5: the emitted order is non increasing by effective timestamp, items
with equal timestamps keep their collection order (the emitted equal
timestamp subsequence is a sublist of the collected one), and both output
documents list the items of the same sorted truncated sequence in that
order. -/
theorem claim_C5_sort_stable :
    (∀ (maxItems : Nat) (kept : List KeptItem),
      ((sortKept kept).take maxItems).Pairwise (fun a b => b.pub_dt ≤ a.pub_dt)) ∧
    (∀ (maxItems : Nat) (kept : List KeptItem) (k : Int),
      List.Sublist (((sortKept kept).take maxItems).filter (fun x => x.pub_dt = k))
        (kept.filter (fun x => x.pub_dt = k))) ∧
    (∀ (T : Int) (maxItems : Nat) (kept : List KeptItem),
      (mainFinish T maxItems kept).files =
        [(OUTPUT_RSS, FileContent.xml (String.intercalate "\n"
            (headerLines T ++ ((sortKept kept).take maxItems).flatMap itemLines ++
              ["</channel>", "</rss>"]))),
         (OUTPUT_JSON, FileContent.jsonDoc
            (((sortKept kept).take maxItems).map toJsonRec))]) := by
  refine ⟨?_, ?_, ?_⟩
  · intro m kept
    have hs := List.sorted_mergeSort leDesc_trans leDesc_total kept
    have hs2 : (sortKept kept).Pairwise (fun a b => b.pub_dt ≤ a.pub_dt) :=
      hs.imp (fun h => by simpa [leDesc] using h)
    exact hs2.sublist (List.take_sublist _ _)
  · intro m kept k
    have heq : (sortKept kept).filter (fun x => decide (x.pub_dt = k)) =
        kept.filter (fun x => decide (x.pub_dt = k)) := by
      unfold sortKept
      refine mergeSort_filter_eq leDesc _ kept leDesc_trans leDesc_total ?_
      intro a b ha hb
      simp only [decide_eq_true_eq] at ha hb
      simp [leDesc, ha, hb]
    have hsub : List.Sublist
        (((sortKept kept).take m).filter (fun x => decide (x.pub_dt = k)))
        ((sortKept kept).filter (fun x => decide (x.pub_dt = k))) :=
      List.Sublist.filter _ (List.take_sublist _ _)
    rw [heq] at hsub
    exact hsub
  · intro T m kept
    rfl

/-- C7: whatever the collection outcome, including a crash that left a
partial kept list, the run writes exactly the feed file and the JSON
file, built from whatever items survived. -/
theorem claim_C7_always_writes :
    ∀ (T : Int) (maxItems : Nat) (o : RunOutcome),
      (mainRun T maxItems o).files.map Prod.fst = [OUTPUT_RSS, OUTPUT_JSON] ∧
      (mainRun T maxItems o).files =
        [(OUTPUT_RSS, FileContent.xml (build_rss T
            ((sortKept (keptOfOutcome o)).take maxItems))),
         (OUTPUT_JSON, FileContent.jsonDoc
            (((sortKept (keptOfOutcome o)).take maxItems).map toJsonRec))] := by
  intro T m o
  exact ⟨rfl, rfl⟩

/-- C8 counterexample: a clean run with zero matching items exits with
code 0, the success code, not a distinct non zero signal. -/
theorem claim_C8_cex :
    (mainRun 0 60 (RunOutcome.completed [])).exitCode = 0 := rfl

/-- C8 amended: main returns 0 on every completed run, whatever the
outcome and however many items survived. -/
theorem claim_C8_exit_zero :
    ∀ (T : Int) (maxItems : Nat) (o : RunOutcome),
      (mainRun T maxItems o).exitCode = 0 := by
  intro T m o
  rfl

/-- C9 (identity store, modelled from the spec): saving then loading
yields the ids as a set, for any list of string ids including the empty
one; the persisted list is sorted without duplicates; and an absent or
unparseable store reads as the empty set. -/
theorem claim_C9_store_roundtrip :
    (∀ ids : List String,
      loadStore (some (saveStore ids)) = sortedDedup ids ∧
      (loadStore (some (saveStore ids))).toFinset = ids.toFinset) ∧
    (∀ ids : List String,
      (sortedDedup ids).Pairwise (fun a b : String => a ≤ b) ∧
      (sortedDedup ids).Nodup) ∧
    loadStore none = [] ∧
    loadStore (some "") = [] ∧
    loadStore (some "not a store") = [] := by
  refine ⟨?_, ?_, rfl, rfl, rfl⟩
  · intro ids
    refine ⟨loadStore_saveStore ids, ?_⟩
    rw [loadStore_saveStore ids]
    ext a
    simp [sortedDedup, List.mem_toFinset, List.mem_dedup]
  · intro ids
    constructor
    · have hs := @List.sorted_mergeSort String
        (fun a b : String => decide (a ≤ b))
        (fun a b c hab hbc => by
          simp only [decide_eq_true_eq] at hab hbc ⊢
          exact le_trans hab hbc)
        (fun a b => by
          simp only [Bool.or_eq_true, decide_eq_true_eq]
          exact le_total a b)
        ids.dedup
      exact hs.imp (fun h => by simpa using h)
    · have hperm : List.Perm (sortedDedup ids) ids.dedup :=
        List.mergeSort_perm ids.dedup _
      exact hperm.nodup_iff.mpr (List.nodup_dedup ids)

/-- C10: every value interpolated into the syndication document (the
channel link and each item title, link, guid, pubDate, description and
enclosure or media URL) passes through esc, so the emitted text around
the fixed template contains no markup significant character: the feed
lines factor through the escaped projection of each item, and escaped
text never contains an angle bracket or a quote, each of the five
special characters becoming its entity. -/
theorem claim_C10_escaping :
    (∀ s : String, (esc s).data.all escSafe = true) ∧
    (esc "&" = "&amp;" ∧ esc "<" = "&lt;" ∧ esc ">" = "&gt;" ∧
      esc quotS = "&quot;" ∧ esc aposS = "&apos;") ∧
    (∀ (T : Int) (items : List KeptItem),
      rssLines T items = headerLinesT (esc LIST_URL) T ++
        (items.map escItemOf).flatMap itemLinesT ++ ["</channel>", "</rss>"]) ∧
    (∀ (T : Int) (items : List KeptItem),
      build_rss T items = String.intercalate "\n" (headerLinesT (esc LIST_URL) T ++
        (items.map escItemOf).flatMap itemLinesT ++ ["</channel>", "</rss>"])) := by
  refine ⟨esc_safe, ⟨by decide, by decide, by decide, by decide, by decide⟩,
    rssLines_factor, ?_⟩
  intro T items
  unfold build_rss
  rw [rssLines_factor]

end Ortho
